import Mathlib

/-!
Verification of the `strview` string-view library (src/strview.c, src/strview.h).

Modelling conventions (shallow embedding):

* Character storage is a single ambient byte buffer `mem : List Nat`
  (bytes are unsigned char values).  A `strview_t` is modelled by
  `Strview`: the C `const char* data` becomes `Option Nat` (an offset
  into `mem`, with `none` standing for `NULL`), and the C `int size`
  becomes `Int`.
* Arguments whose identity never matters - delimiter sets and search
  needles, which the C code only reads through (null check plus content
  scan) - are modelled as `Option (List Nat)`: `none` for an invalid
  view, `some l` for a valid view of content `l`.  This lets string
  literals such as `cstr("\x0d\x0a")` live outside the ambient buffer,
  exactly as in the C program.
* In-place mutation through a `strview_t*` is modelled by returning the
  new view: a C function `T f(strview_t* src, ...)` becomes a Lean
  function returning `T × Strview` (result first, updated source second).
* `strview_split_line`'s `char* eol` in/out parameter is `Option Nat`:
  `none` for a NULL pointer, `some e` for a pointer holding byte `e`.
  The function returns the new value of that byte as the third component.
-/

/-- A string view: the C struct `strview_t { const char* data; int size; }`.
`data = none` models a NULL pointer, `data = some o` a pointer to offset
`o` of the ambient buffer. -/
structure Strview where
  data : Option Nat
  size : Int
deriving DecidableEq, Repr

/-- The C macro `STRVIEW_INVALID = { .data = NULL, .size = 0 }`. -/
def STRVIEW_INVALID : Strview := ⟨none, 0⟩

/-- Bytes referenced by a view: `size.toNat` bytes of the ambient buffer
starting at the view's offset, `[]` for a NULL data pointer. -/
def viewBytes (mem : List Nat) (v : Strview) : List Nat :=
  match v.data with
  | none => []
  | some o => (mem.drop o).take v.size.toNat

/-- Well-formedness of a view over the ambient buffer: an invalid view
stores size 0 (as `STRVIEW_INVALID` does), a valid view has a
non-negative size and references bytes inside the buffer. -/
def strviewWF (mem : List Nat) (v : Strview) : Bool :=
  match v.data with
  | none => v.size == 0
  | some o => decide (0 ≤ v.size) && decide (o + v.size.toNat ≤ mem.length)

/-- Reading one byte through a data pointer (`*p`); reading through NULL
is undefined in C and modelled as 0 (never relied upon under `strviewWF`). -/
def readByte (mem : List Nat) (d : Option Nat) : Nat :=
  match d with
  | some o => mem.getD o 0
  | none => 0

/-- ASCII toupper, as used by the `_nocase` comparisons. -/
def toupperN (c : Nat) : Nat :=
  if 97 ≤ c ∧ c ≤ 122 then c - 32 else c

/-- memcmp on two equal-length byte lists: difference of the first
mismatching pair, 0 if none. -/
def memcmpL : List Nat → List Nat → Int
  | a :: as, b :: bs => if a = b then memcmpL as bs else (a : Int) - (b : Int)
  | _, _ => 0

/-- The static helper `memcmp_nocase` of strview.c, on byte lists. -/
def memcmp_nocase : List Nat → List Nat → Int
  | a :: as, b :: bs =>
      if toupperN a = toupperN b then memcmp_nocase as bs
      else (toupperN a : Int) - (toupperN b : Int)
  | _, _ => 0

/-- strview.c `strview_is_valid`: `!!str.data`. -/
def strview_is_valid (v : Strview) : Bool :=
  v.data.isSome

/-- strview.c `strview_is_match`:
`(str1.size == str2.size) && (str1.data == str2.data || !memcmp(str1.data, str2.data, str1.size))`. -/
def strview_is_match (mem : List Nat) (s1 s2 : Strview) : Bool :=
  s1.size == s2.size &&
    (s1.data == s2.data || memcmpL (viewBytes mem s1) (viewBytes mem s2) == 0)

/-- strview.c `strview_is_match_nocase`: as `strview_is_match` but with
`memcmp_nocase`. -/
def strview_is_match_nocase (mem : List Nat) (s1 s2 : Strview) : Bool :=
  s1.size == s2.size &&
    (s1.data == s2.data || memcmp_nocase (viewBytes mem s1) (viewBytes mem s2) == 0)

/-- Bytes read by `memcmp(v.data, _, n)`: `n` bytes from a view's data
pointer (`[]` through NULL). -/
def sliceN (mem : List Nat) (d : Option Nat) (n : Nat) : List Nat :=
  match d with
  | none => []
  | some o => (mem.drop o).take n

/-- strview.c `strview_compare`: memcmp over the shorter length, then the
longer view sorts greater. -/
def strview_compare (mem : List Nat) (s1 s2 : Strview) : Int :=
  let compare_size : Int := if s1.size < s2.size then s1.size else s2.size
  let r : Int :=
    if compare_size ≠ 0 then
      memcmpL (sliceN mem s1.data compare_size.toNat) (sliceN mem s2.data compare_size.toNat)
    else 0
  if r = 0 ∧ s1.size ≠ s2.size then (if s1.size > s2.size then 1 else -1) else r

/-- The static helper `contains_char` of strview.c: scans the delimiter
view's content for character `c` (case folding when not case sensitive).
A NULL-data delimiter view scans nothing. -/
def contains_char (str : Option (List Nat)) (c : Nat) (case_sensetive : Bool) : Bool :=
  match str with
  | none => false
  | some l => l.any (fun x => if case_sensetive then x == c else toupperN x == toupperN c)

/-- The forward scan of `strview_find_first`: first offset `k` with
`hsize - k >= needle.size` whose window matches the needle bytes. -/
def findSub (mem : List Nat) (o : Nat) (hsize : Int) (nd : List Nat) : Option Nat :=
  if (nd.length : Int) ≤ hsize then
    (List.range ((hsize - (nd.length : Int)).toNat + 1)).find?
      (fun k => (mem.drop (o + k)).take nd.length == nd)
  else none

/-- The backward scan of `strview_find_last`: largest such offset. -/
def findSubLast (mem : List Nat) (o : Nat) (hsize : Int) (nd : List Nat) : Option Nat :=
  if (0 : Int) ≤ hsize - (nd.length : Int) then
    ((List.range ((hsize - (nd.length : Int)).toNat + 1)).reverse).find?
      (fun k => (mem.drop (o + k)).take nd.length == nd)
  else none

/-- strview.c `strview_find_first`: needle modelled by its content
(`none` = invalid needle view). -/
def strview_find_first (mem : List Nat) (hay : Strview) (needle : Option (List Nat)) : Strview :=
  match hay.data, needle with
  | some o, some nd =>
    match findSub mem o hay.size nd with
    | some k => ⟨some (o + k), (nd.length : Int)⟩
    | none => STRVIEW_INVALID
  | _, _ => STRVIEW_INVALID

/-- strview.c `strview_find_last`. -/
def strview_find_last (mem : List Nat) (hay : Strview) (needle : Option (List Nat)) : Strview :=
  match hay.data, needle with
  | some o, some nd =>
    match findSubLast mem o hay.size nd with
    | some k => ⟨some (o + k), (nd.length : Int)⟩
    | none => STRVIEW_INVALID
  | _, _ => STRVIEW_INVALID

/-- strview.c `strview_contains`. -/
def strview_contains (mem : List Nat) (hay : Strview) (needle : Option (List Nat)) : Bool :=
  strview_is_valid (strview_find_first mem hay needle)

/-- strview.c `strview_sub`: negative indices resolved from the end, then
the `begin <= end && begin < size && end >= 0` test, then clamping. -/
def strview_sub (str : Strview) (b0 e0 : Int) : Strview :=
  match str.data with
  | none => ⟨none, 0⟩
  | some o =>
    if str.size ≠ 0 then
      let b1 := if b0 < 0 then str.size + b0 else b0
      let e1 := if e0 < 0 then str.size + e0 else e0
      if b1 ≤ e1 ∧ b1 < str.size ∧ 0 ≤ e1 then
        let b2 := if b1 < 0 then 0 else b1
        let e2 := if e1 > str.size then str.size else e1
        ⟨some (o + b2.toNat), e2 - b2⟩
      else ⟨none, 0⟩
    else ⟨some o, 0⟩

/-- The index resolution step of `strview_sub`: a negative index counts
from the end (`if (i < 0) i = str.size + i`). -/
def sub_resolve (size i : Int) : Int := if i < 0 then size + i else i

/-- The low clamp of `strview_sub` (`if (begin < 0) begin = 0`). -/
def sub_clamp_low (i : Int) : Int := if i < 0 then 0 else i

/-- The high clamp of `strview_sub` (`if (end > str.size) end = str.size`). -/
def sub_clamp_high (size i : Int) : Int := if i > size then size else i

/-- First index of the list holding a delimiter character: the forward
scan loop of the static `split_first_delimeter`. -/
def scanDelim (delims : Option (List Nat)) (cs : Bool) : List Nat → Option Nat
  | [] => none
  | c :: rest =>
      if contains_char delims c cs then some 0
      else (scanDelim delims cs rest).map (· + 1)

/-- Offset of the first delimiter in the source view, guarded by the
`strview_ptr->data && delimiters.data` null checks of the C scan. -/
def findFirstDelimIdx (mem : List Nat) (src : Strview) (delims : Option (List Nat))
    (cs : Bool) : Option Nat :=
  match src.data, delims with
  | some _, some _ => scanDelim delims cs (viewBytes mem src)
  | _, _ => none

/-- The static `split_first_delimeter` of strview.c.  Returns
(returned view, updated source).  On a find at offset `i` the source
keeps `size - i - 1` bytes and its pointer moves past the delimiter only
when bytes remain; on no find the whole source is returned and the
source becomes `STRVIEW_INVALID`. -/
def split_first_delimeter (mem : List Nat) (src : Strview) (delims : Option (List Nat))
    (cs : Bool) : Strview × Strview :=
  match src.data, findFirstDelimIdx mem src delims cs with
  | some o, some i =>
    let s1 : Int := src.size - (i : Int) - 1
    (⟨some o, (i : Int)⟩, ⟨if s1 ≠ 0 then some (o + i + 1) else some (o + i), s1⟩)
  | _, _ => (src, STRVIEW_INVALID)

/-- Last index of the list holding a delimiter character: the backward
scan loop of the static `split_last_delimeter`. -/
def scanDelimLast (delims : Option (List Nat)) (cs : Bool) : List Nat → Option Nat
  | [] => none
  | c :: rest =>
      match scanDelimLast delims cs rest with
      | some j => some (j + 1)
      | none => if contains_char delims c cs then some 0 else none

/-- Offset of the last delimiter in the source view, guarded by the
`data && size && delimiters.data` checks of the C scan. -/
def findLastDelimIdx (mem : List Nat) (src : Strview) (delims : Option (List Nat))
    (cs : Bool) : Option Nat :=
  match src.data, delims with
  | some _, some _ =>
      if src.size ≠ 0 then scanDelimLast delims cs (viewBytes mem src) else none
  | _, _ => none

/-- The static `split_last_delimeter` of strview.c. -/
def split_last_delimeter (mem : List Nat) (src : Strview) (delims : Option (List Nat))
    (cs : Bool) : Strview × Strview :=
  match src.data, findLastDelimIdx mem src delims cs with
  | some o, some j =>
    let rs : Int := src.size - (j : Int) - 1
    (⟨if rs ≠ 0 then some (o + j + 1) else some (o + j), rs⟩, ⟨some o, (j : Int)⟩)
  | _, _ => (src, STRVIEW_INVALID)

/-- Public wrapper `strview_split_first_delimeter` (case sensitive). -/
def strview_split_first_delimeter (mem : List Nat) (src : Strview)
    (delims : Option (List Nat)) : Strview × Strview :=
  split_first_delimeter mem src delims true

/-- Public wrapper `strview_split_first_delimiter_nocase`. -/
def strview_split_first_delimiter_nocase (mem : List Nat) (src : Strview)
    (delims : Option (List Nat)) : Strview × Strview :=
  split_first_delimeter mem src delims false

/-- Public wrapper `strview_split_last_delimeter` (case sensitive). -/
def strview_split_last_delimeter (mem : List Nat) (src : Strview)
    (delims : Option (List Nat)) : Strview × Strview :=
  split_last_delimeter mem src delims true

/-- Public wrapper `strview_split_last_delimeter_nocase`. -/
def strview_split_last_delimeter_nocase (mem : List Nat) (src : Strview)
    (delims : Option (List Nat)) : Strview × Strview :=
  split_last_delimeter mem src delims false

/-- The static `split_index` of strview.c: clamp the (possibly
end-relative) index into `[0, size]`, cut the view there; a non-negative
argument returns the head and keeps the tail, a negative argument
returns the tail and keeps the head.  Returns (returned view, updated
source). -/
def split_index (src : Strview) (index : Int) : Strview × Strview :=
  let neg := index < 0
  let i1 := if neg then src.size + index else index
  let i2 := if i1 < 0 then 0 else i1
  let idx := if i2 > src.size then src.size else i2
  let result : Strview := ⟨src.data, idx⟩
  let remainder : Strview := ⟨src.data.map (fun o => o + idx.toNat), src.size - idx⟩
  if neg then (remainder, result) else (result, remainder)

/-- Public wrapper `strview_split_index`. -/
def strview_split_index (src : Strview) (index : Int) : Strview × Strview :=
  split_index src index

/-- strview.c `strview_pop_first_char`: split one leading byte off and
read it; 0 and no change for an empty source. -/
def strview_pop_first_char (mem : List Nat) (src : Strview) : Nat × Strview :=
  if src.size ≠ 0 then
    let pr := split_index src 1
    (readByte mem pr.1.data, pr.2)
  else (0, src)

/-- strview.c `strview_split_right`: split at the byte after `pos` ends,
keep the head in the source and return the tail; `pos`'s end must lie in
`[src.data, src.data + src.size]` or the source is left untouched and
an invalid view is returned. -/
def strview_split_right (src pos : Strview) : Strview × Strview :=
  match src.data, pos.data with
  | some so, some po =>
    let split_point : Int := (po : Int) + pos.size
    if (so : Int) ≤ split_point ∧ split_point ≤ (so : Int) + src.size then
      let pr := split_index src (split_point - (so : Int))
      (pr.2, pr.1)
    else (STRVIEW_INVALID, src)
  | _, _ => (STRVIEW_INVALID, src)

/-- strview.c `strview_split_line`: returns (line, updated source,
updated eol byte).  Models the C flow: consume a pending half-terminator
completion, split at the first CR (13) or LF (10), absorb a CRLF/LFCR
pair, and on no terminator restore the returned remainder into the
source and return `STRVIEW_INVALID`. -/
def strview_split_line (mem : List Nat) (src0 : Strview) (eol : Option Nat) :
    Strview × Strview × Option Nat :=
  if src0.size ≠ 0 then
    let src1 :=
      match eol with
      | some e =>
          if e ≠ 0 ∧ e + readByte mem src0.data = 13 + 10 then
            (strview_pop_first_char mem src0).2
          else src0
      | none => src0
    let pr := strview_split_first_delimeter mem src1 (some [13, 10])
    if pr.2.data = none then
      (STRVIEW_INVALID, pr.1, eol)
    else
      let e1 := readByte mem (pr.1.data.map (fun o => o + pr.1.size.toNat))
      if e1 + readByte mem pr.2.data = 13 + 10 then
        (pr.1, (strview_pop_first_char mem pr.2).2, eol.map (fun _ => 0))
      else
        (pr.1, pr.2, eol.map (fun _ => e1))
  else (STRVIEW_INVALID, src0, eol)

/-- One run of the delimiter-splitting loop of the spec: repeatedly call
`strview_split_first_delimeter`, collecting the returned pieces (as byte
lists) and the consumed delimiter characters, until the source goes
invalid (or fuel runs out, in which case the remaining content is the
last piece).  Returns (pieces, consumed delimiters, final source). -/
def splitRun (mem : List Nat) (delims : Option (List Nat)) :
    Nat → Strview → List (List Nat) × List Nat × Strview
  | 0, src => ([viewBytes mem src], [], src)
  | fuel + 1, src =>
    match src.data, findFirstDelimIdx mem src delims true with
    | some _, some i =>
      let pr := strview_split_first_delimeter mem src delims
      let rest := splitRun mem delims fuel pr.2
      (viewBytes mem pr.1 :: rest.1, (viewBytes mem src).getD i 0 :: rest.2.1, rest.2.2)
    | _, _ => ([viewBytes mem src], [], STRVIEW_INVALID)

/-- Concatenation of pieces with one separator byte between consecutive
pieces. -/
def joinSeps : List (List Nat) → List Nat → List Nat
  | [], _ => []
  | p :: _, [] => p
  | p :: ps, c :: cs => p ++ c :: joinSeps ps cs

/-! ## Helper lemmas -/

lemma take_getD_drop : ∀ (l : List Nat) (i : Nat), i < l.length →
    l.take i ++ l.getD i 0 :: l.drop (i + 1) = l := by
  intro l
  induction l with
  | nil => intro i h; simp at h
  | cons a t ih =>
    intro i h
    cases i with
    | zero => simp [List.getD]
    | succ n =>
      have hn : n < t.length := by simpa using h
      simpa [List.getD_cons_succ] using congrArg (a :: ·) (ih n hn)

lemma scanDelim_lt_length {d : Option (List Nat)} {cs : Bool} :
    ∀ {l : List Nat} {i : Nat}, scanDelim d cs l = some i → i < l.length := by
  intro l
  induction l with
  | nil => intro i h; simp [scanDelim] at h
  | cons a t ih =>
    intro i h
    by_cases hc : contains_char d a cs = true
    · simp [scanDelim, hc] at h
      simp only [List.length_cons]
      omega
    · simp [scanDelim, hc] at h
      obtain ⟨j, hj, rfl⟩ := h
      have := ih hj
      simp only [List.length_cons]
      omega

lemma scanDelim_spec {d : Option (List Nat)} {cs : Bool} :
    ∀ {l : List Nat} {i : Nat}, scanDelim d cs l = some i →
      contains_char d (l.getD i 0) cs = true
      ∧ ∀ j, j < i → contains_char d (l.getD j 0) cs = false := by
  intro l
  induction l with
  | nil => intro i h; simp [scanDelim] at h
  | cons a t ih =>
    intro i h
    by_cases hc : contains_char d a cs = true
    · simp [scanDelim, hc] at h
      subst h
      exact ⟨by simpa [List.getD] using hc, by omega⟩
    · simp [scanDelim, hc] at h
      obtain ⟨j, hj, rfl⟩ := h
      obtain ⟨h1, h2⟩ := ih hj
      refine ⟨by simpa [List.getD_cons_succ] using h1, ?_⟩
      intro k hk
      cases k with
      | zero => simpa [List.getD] using hc
      | succ m => simpa [List.getD_cons_succ] using h2 m (by omega)

lemma scanDelim_eq_none {d : Option (List Nat)} {cs : Bool} :
    ∀ {l : List Nat}, (∀ c ∈ l, contains_char d c cs = false) → scanDelim d cs l = none := by
  intro l
  induction l with
  | nil => intro _; rfl
  | cons a t ih =>
    intro h
    have ha : contains_char d a cs = false := h a (by simp)
    have ht := ih (fun c hc => h c (by simp [hc]))
    simp [scanDelim, ha, ht]

lemma wf_some_iff (mem : List Nat) (o : Nat) (s : Int) :
    strviewWF mem ⟨some o, s⟩ = true ↔ 0 ≤ s ∧ o + s.toNat ≤ mem.length := by
  simp [strviewWF]

lemma viewBytes_length_of_wf (mem : List Nat) (o : Nat) (s : Int)
    (hwf : strviewWF mem ⟨some o, s⟩ = true) :
    (viewBytes mem ⟨some o, s⟩).length = s.toNat := by
  obtain ⟨h0, hb⟩ := (wf_some_iff mem o s).mp hwf
  simp [viewBytes, List.length_take]
  omega

lemma drop_viewBytes (mem : List Nat) (o n i : Nat) :
    ((mem.drop o).take n).drop i = (mem.drop (o + i)).take (n - i) := by
  rw [List.drop_take, List.drop_drop]

lemma take_viewBytes (mem : List Nat) (o n i : Nat) (h : i ≤ n) :
    ((mem.drop o).take n).take i = (mem.drop o).take i := by
  rw [List.take_take, Nat.min_eq_left h]

/-- Facts about a successful delimiter scan of `split_first_delimeter`:
the bound on the found index, the exact returned pair, and the contents
and well-formedness of both halves. -/
lemma split_first_found (mem : List Nat) (o : Nat) (sz : Int) (dl : List Nat)
    (cs : Bool) (i : Nat)
    (hwf : strviewWF mem ⟨some o, sz⟩ = true)
    (hfind : scanDelim (some dl) cs (viewBytes mem ⟨some o, sz⟩) = some i) :
    (i : Int) + 1 ≤ sz
    ∧ split_first_delimeter mem ⟨some o, sz⟩ (some dl) cs
        = (⟨some o, (i : Int)⟩,
           ⟨if sz - i - 1 ≠ 0 then some (o + i + 1) else some (o + i), sz - i - 1⟩)
    ∧ viewBytes mem (⟨some o, (i : Int)⟩ : Strview) = (viewBytes mem ⟨some o, sz⟩).take i
    ∧ viewBytes mem
        (⟨if sz - i - 1 ≠ 0 then some (o + i + 1) else some (o + i), sz - i - 1⟩ : Strview)
        = (viewBytes mem ⟨some o, sz⟩).drop (i + 1)
    ∧ strviewWF mem
        ⟨if sz - i - 1 ≠ 0 then some (o + i + 1) else some (o + i), sz - i - 1⟩ = true := by
  obtain ⟨h0, hb⟩ := (wf_some_iff mem o sz).mp hwf
  have hlen := viewBytes_length_of_wf mem o sz hwf
  have hi : i < sz.toNat := by
    have := scanDelim_lt_length hfind
    omega
  have hile : (i : Int) + 1 ≤ sz := by omega
  have heq : split_first_delimeter mem ⟨some o, sz⟩ (some dl) cs
      = (⟨some o, (i : Int)⟩,
         ⟨if sz - i - 1 ≠ 0 then some (o + i + 1) else some (o + i), sz - i - 1⟩) := by
    simp [split_first_delimeter, findFirstDelimIdx, hfind]
  have htake : viewBytes mem (⟨some o, (i : Int)⟩ : Strview)
      = (viewBytes mem ⟨some o, sz⟩).take i := by
    simp only [viewBytes]
    rw [take_viewBytes mem o sz.toNat i (by omega)]
    simp
  have hdrop : viewBytes mem
      (⟨if sz - i - 1 ≠ 0 then some (o + i + 1) else some (o + i), sz - i - 1⟩ : Strview)
      = (viewBytes mem ⟨some o, sz⟩).drop (i + 1) := by
    by_cases hz : sz - i - 1 = 0
    · rw [if_neg (not_not_intro hz)]
      have hrhs : (viewBytes mem ⟨some o, sz⟩).drop (i + 1) = [] :=
        List.drop_eq_nil_of_le (by rw [hlen]; omega)
      rw [hrhs]
      have h0' : (sz - i - 1).toNat = 0 := by omega
      simp [viewBytes, h0']
    · rw [if_pos hz]
      simp only [viewBytes]
      rw [drop_viewBytes mem o sz.toNat (i + 1)]
      have h1 : (sz - i - 1).toNat = sz.toNat - (i + 1) := by omega
      rw [h1, Nat.add_assoc]
  have hwf2 : strviewWF mem
      ⟨if sz - i - 1 ≠ 0 then some (o + i + 1) else some (o + i), sz - i - 1⟩ = true := by
    by_cases hz : sz - i - 1 = 0
    · rw [if_neg (not_not_intro hz), wf_some_iff]
      exact ⟨by omega, by omega⟩
    · rw [if_pos hz, wf_some_iff]
      exact ⟨by omega, by omega⟩
  exact ⟨hile, heq, htake, hdrop, hwf2⟩

lemma wf_iff_of_data_some (mem : List Nat) (v : Strview) (o : Nat) (h : v.data = some o) :
    strviewWF mem v = true ↔ 0 ≤ v.size ∧ o + v.size.toNat ≤ mem.length := by
  rcases v with ⟨d, s⟩
  obtain rfl : d = some o := h
  exact wf_some_iff mem o s

/-! ## Claim theorems -/

/-- C9: on a valid haystack with a valid zero-length needle,
`strview_find_first` returns a valid zero-length view anchored at the
start of the haystack and `strview_find_last` returns a valid
zero-length view anchored at its end: an empty needle always matches. -/
theorem spec_c9 (mem : List Nat) (hay : Strview) (o : Nat)
    (h1 : hay.data = some o) (h2 : 0 ≤ hay.size) :
    strview_find_first mem hay (some []) = ⟨some o, 0⟩
    ∧ strview_find_last mem hay (some []) = ⟨some (o + hay.size.toNat), 0⟩
    ∧ strview_is_valid (strview_find_first mem hay (some [])) = true
    ∧ strview_is_valid (strview_find_last mem hay (some [])) = true := by
  rcases hay with ⟨d, sz⟩
  obtain rfl : d = some o := h1
  have h2' : (0 : Int) ≤ sz := h2
  have hfs : findSub mem o sz [] = some 0 := by
    unfold findSub
    rw [if_pos (by simpa using h2')]
    have h3 : (sz - ((List.length ([] : List Nat) : Int))).toNat + 1 = sz.toNat + 1 := by
      simp
    rw [h3, List.range_succ_eq_map, List.find?_cons_of_pos _ (by simp)]
  have hfl : findSubLast mem o sz [] = some sz.toNat := by
    unfold findSubLast
    rw [if_pos (by simpa using h2')]
    have h3 : (sz - ((List.length ([] : List Nat) : Int))).toNat + 1 = sz.toNat + 1 := by
      simp
    rw [h3, List.range_succ]
    simp only [List.reverse_append, List.reverse_cons, List.reverse_nil, List.nil_append,
      List.singleton_append]
    rw [List.find?_cons_of_pos _ (by simp)]
  refine ⟨?_, ?_, ?_, ?_⟩
  · simp [strview_find_first, hfs]
  · simp [strview_find_last, hfl]
  · simp [strview_find_first, hfs, strview_is_valid]
  · simp [strview_find_last, hfl, strview_is_valid]

/-- Witness for spec_c9: haystack "abc" (offsets 0-2), empty needle. -/
theorem spec_c9_witness :
    strview_find_first [97, 98, 99] ⟨some 0, 3⟩ (some []) = ⟨some 0, 0⟩
    ∧ strview_find_last [97, 98, 99] ⟨some 0, 3⟩ (some []) = ⟨some 3, 0⟩ := by
  have h := spec_c9 [97, 98, 99] ⟨some 0, 3⟩ 0 rfl (by decide)
  exact ⟨h.1, h.2.1⟩

/-- C10: `strview_is_match` and `strview_is_match_nocase` return true
when one argument is an Invalid view (null data, size 0) and the other
is a valid zero-length view: the match predicates compare only size and
byte content, never validity. -/
theorem spec_c10 (mem : List Nat) (p : Nat) :
    strview_is_match mem ⟨none, 0⟩ ⟨some p, 0⟩ = true
    ∧ strview_is_match mem ⟨some p, 0⟩ ⟨none, 0⟩ = true
    ∧ strview_is_match_nocase mem ⟨none, 0⟩ ⟨some p, 0⟩ = true
    ∧ strview_is_match_nocase mem ⟨some p, 0⟩ ⟨none, 0⟩ = true :=
  ⟨rfl, rfl, rfl, rfl⟩

/-- C4 counterexample: `strview_is_match` and `strview_compare` use the
stored size of a null-data view directly, so the Invalid view {null, 1}
does not behave like {null, 0}: it matches nothing that {null, 0}
matches and compares greater instead of equal. -/
theorem spec_c4_counterexample :
    strview_is_match [] ⟨none, 1⟩ ⟨none, 0⟩ = false
    ∧ strview_is_match [] ⟨none, 0⟩ ⟨none, 0⟩ = true
    ∧ strview_compare [] ⟨none, 1⟩ ⟨none, 0⟩ = 1
    ∧ strview_compare [] ⟨none, 0⟩ ⟨none, 0⟩ = 0 := by
  exact ⟨by decide, by decide, by decide, by decide⟩

/-- C4 (amended): the extraction and search operations (`strview_sub`,
`strview_find_first`, `strview_find_last`, `strview_contains`) treat a
null-data view as length 0 whatever size is stored in it; the comparison
operations do not (see the counterexample). -/
theorem spec_c4 (mem : List Nat) (s b e : Int) (nd : Option (List Nat)) :
    strview_sub ⟨none, s⟩ b e = strview_sub ⟨none, 0⟩ b e
    ∧ strview_find_first mem ⟨none, s⟩ nd = strview_find_first mem ⟨none, 0⟩ nd
    ∧ strview_find_last mem ⟨none, s⟩ nd = strview_find_last mem ⟨none, 0⟩ nd
    ∧ strview_contains mem ⟨none, s⟩ nd = strview_contains mem ⟨none, 0⟩ nd := by
  refine ⟨rfl, ?_, ?_, ?_⟩ <;> cases nd <;> rfl

/-- C2 counterexample: on the valid non-empty view of "ab" (offsets
0-1), the inverted request sub(v, 2, 1) yields an Invalid view, not a
zero-length view anchored at the view's data pointer; and the empty
in-range request sub(v, 1, 1) is anchored at data + 1, not at the data
pointer. -/
theorem spec_c2_counterexample :
    strview_sub ⟨some 0, 2⟩ 2 1 = ⟨none, 0⟩
    ∧ strview_is_valid (strview_sub ⟨some 0, 2⟩ 2 1) = false
    ∧ strview_sub ⟨some 0, 2⟩ 1 1 = ⟨some 1, 0⟩ := by
  exact ⟨by decide, by decide, by decide⟩

/-- C1 counterexample: on "abcd" (offsets 0-3) with pos viewing "bc"
(offset 1, size 2), strview_split_right leaves "abc" - including pos's
own bytes - in the source, not the "a" that lies before pos's start. -/
theorem spec_c1_counterexample :
    (strview_split_right ⟨some 0, 4⟩ ⟨some 1, 2⟩).2 = ⟨some 0, 3⟩
    ∧ viewBytes [97, 98, 99, 100] (strview_split_right ⟨some 0, 4⟩ ⟨some 1, 2⟩).2
        = [97, 98, 99]
    ∧ viewBytes [97, 98, 99, 100] (strview_split_right ⟨some 0, 4⟩ ⟨some 1, 2⟩).2
        ≠ [97] := by
  exact ⟨by decide, by decide, by decide⟩

lemma clamp_facts (sz b1 e1 : Int) (h1 : b1 ≤ e1) (h2 : b1 < sz) (h3 : 0 ≤ e1)
    (h4 : 0 < sz) :
    0 ≤ sub_clamp_low b1 ∧ sub_clamp_low b1 ≤ sub_clamp_high sz e1
      ∧ sub_clamp_high sz e1 ≤ sz := by
  unfold sub_clamp_low sub_clamp_high
  split_ifs <;> omega

/-- C2 (amended): for a valid non-empty view, `strview_sub` resolves
negative indices as length + index; when the resolved range satisfies
begin ≤ end, begin < length and end ≥ 0 it is clamped into [0, length]
and the sub-view [begin, end) anchored at data + begin is returned (its
bytes are the corresponding slice of the view's bytes, zero-length when
begin = end); otherwise - an inverted or entirely out-of-range request -
the result is Invalid. -/
theorem spec_c2 (mem : List Nat) (v : Strview) (o : Nat) (b0 e0 : Int)
    (hdata : v.data = some o) (hpos : 0 < v.size) :
    (¬ (sub_resolve v.size b0 ≤ sub_resolve v.size e0
        ∧ sub_resolve v.size b0 < v.size ∧ 0 ≤ sub_resolve v.size e0) →
      strview_sub v b0 e0 = ⟨none, 0⟩)
    ∧ ((sub_resolve v.size b0 ≤ sub_resolve v.size e0
        ∧ sub_resolve v.size b0 < v.size ∧ 0 ≤ sub_resolve v.size e0) →
      strview_sub v b0 e0
        = ⟨some (o + (sub_clamp_low (sub_resolve v.size b0)).toNat),
           sub_clamp_high v.size (sub_resolve v.size e0)
             - sub_clamp_low (sub_resolve v.size b0)⟩
      ∧ viewBytes mem (strview_sub v b0 e0)
          = ((viewBytes mem v).drop
                (sub_clamp_low (sub_resolve v.size b0)).toNat).take
              (sub_clamp_high v.size (sub_resolve v.size e0)
                - sub_clamp_low (sub_resolve v.size b0)).toNat) := by
  have hne : v.size ≠ 0 := by omega
  have hsub : strview_sub v b0 e0 =
      if sub_resolve v.size b0 ≤ sub_resolve v.size e0 ∧ sub_resolve v.size b0 < v.size
          ∧ 0 ≤ sub_resolve v.size e0 then
        (⟨some (o + (sub_clamp_low (sub_resolve v.size b0)).toNat),
          sub_clamp_high v.size (sub_resolve v.size e0)
            - sub_clamp_low (sub_resolve v.size b0)⟩ : Strview)
      else ⟨none, 0⟩ := by
    simp only [strview_sub, hdata]
    rw [if_pos hne]
    simp only [sub_resolve, sub_clamp_low, sub_clamp_high]
  constructor
  · intro hC
    rw [hsub, if_neg hC]
  · intro hC
    obtain ⟨hB0, hBE, hEs⟩ :=
      clamp_facts v.size (sub_resolve v.size b0) (sub_resolve v.size e0)
        hC.1 hC.2.1 hC.2.2 hpos
    rw [hsub, if_pos hC]
    have hm : (sub_clamp_high v.size (sub_resolve v.size e0)
        - sub_clamp_low (sub_resolve v.size b0)).toNat
        ≤ v.size.toNat - (sub_clamp_low (sub_resolve v.size b0)).toNat := by
      omega
    refine ⟨rfl, ?_⟩
    have hvb : viewBytes mem v = (mem.drop o).take v.size.toNat := by
      simp [viewBytes, hdata]
    rw [hvb, drop_viewBytes, List.take_take, Nat.min_eq_left hm]
    simp [viewBytes]

/-- Witness for spec_c2: sub of "...THIS..." with indices 3 and 7 views
"THIS". -/
theorem spec_c2_witness :
    strview_sub ⟨some 0, 10⟩ 3 7 = ⟨some 3, 4⟩
    ∧ viewBytes [46, 46, 46, 84, 72, 73, 83, 46, 46, 46]
        (strview_sub ⟨some 0, 10⟩ 3 7) = [84, 72, 73, 83] := by
  have h := (spec_c2 [46, 46, 46, 84, 72, 73, 83, 46, 46, 46] ⟨some 0, 10⟩ 0 3 7 rfl
      (by decide)).2 (by decide)
  refine ⟨?_, ?_⟩
  · rw [h.1]; decide
  · rw [h.2]; decide

/-- C1 (amended): for valid src and pos with pos's span inside src,
`strview_split_right` returns the sub-view of src running from the end
of pos to the end of src, and updates src to retain exactly the bytes of
src up to and including pos's end - pos's own bytes stay in the
source. -/
theorem spec_c1 (mem : List Nat) (src pos : Strview) (so po : Nat)
    (hs : src.data = some so) (hp : pos.data = some po)
    (hwfs : strviewWF mem src = true) (hwfp : strviewWF mem pos = true)
    (hlo : so ≤ po) (hhi : (po : Int) + pos.size ≤ (so : Int) + src.size) :
    (strview_split_right src pos).1
        = ⟨some (so + ((po : Int) + pos.size - so).toNat),
           src.size - ((po : Int) + pos.size - so)⟩
    ∧ (strview_split_right src pos).2 = ⟨some so, (po : Int) + pos.size - so⟩
    ∧ viewBytes mem (strview_split_right src pos).1
        = (viewBytes mem src).drop ((po : Int) + pos.size - so).toNat
    ∧ viewBytes mem (strview_split_right src pos).2
        = (viewBytes mem src).take ((po : Int) + pos.size - so).toNat := by
  have hps : 0 ≤ pos.size := ((wf_iff_of_data_some mem pos po hp).mp hwfp).1
  have hss : 0 ≤ src.size := ((wf_iff_of_data_some mem src so hs).mp hwfs).1
  set d : Int := (po : Int) + pos.size - so with hd
  have hd0 : 0 ≤ d := by omega
  have hds : d ≤ src.size := by omega
  have hsi : split_index src d = (⟨some so, d⟩, ⟨some (so + d.toNat), src.size - d⟩) := by
    have h1 : ¬ (d < 0) := by omega
    simp only [split_index, hs, if_neg h1]
    rw [if_neg (by omega : ¬ d > src.size)]
    simp
  have hsr : strview_split_right src pos
      = (⟨some (so + d.toNat), src.size - d⟩, ⟨some so, d⟩) := by
    simp only [strview_split_right, hs, hp]
    rw [if_pos ⟨by omega, by omega⟩]
    rw [← hd] at *
    rw [hsi]
  have hvb : viewBytes mem src = (mem.drop so).take src.size.toNat := by
    simp [viewBytes, hs]
  refine ⟨by rw [hsr], by rw [hsr], ?_, ?_⟩
  · rw [hsr, hvb, drop_viewBytes]
    simp only [viewBytes]
    have h2 : (src.size - d).toNat = src.size.toNat - d.toNat := by omega
    rw [h2]
  · rw [hsr, hvb, take_viewBytes mem so src.size.toNat d.toNat (by omega)]
    simp [viewBytes]

/-- Witness for spec_c1: "abcd" with pos = "bc": the returned view is
"d" and the source retains "abc". -/
theorem spec_c1_witness :
    (strview_split_right ⟨some 0, 4⟩ ⟨some 1, 2⟩).1 = ⟨some 3, 1⟩
    ∧ viewBytes [97, 98, 99, 100] (strview_split_right ⟨some 0, 4⟩ ⟨some 1, 2⟩).1
        = [100] := by
  have h := spec_c1 [97, 98, 99, 100] ⟨some 0, 4⟩ ⟨some 1, 2⟩ 0 1 rfl rfl
      (by decide) (by decide) (by decide) (by decide)
  refine ⟨?_, ?_⟩
  · rw [h.1]; decide
  · rw [h.2.2.1]; decide

lemma take_drop_concat (mem : List Nat) (o szn idxn : Nat) (h : idxn ≤ szn) :
    (mem.drop o).take idxn ++ (mem.drop (o + idxn)).take (szn - idxn)
      = (mem.drop o).take szn := by
  conv_rhs => rw [← List.take_append_drop idxn ((mem.drop o).take szn)]
  rw [drop_viewBytes, take_viewBytes mem o szn idxn h]

/-- C7: for any well-formed view and any integer n (negative and
out-of-range included), the piece returned by `strview_split_index` and
the piece left in the source, concatenated in head-before-tail order of
the original, reconstruct the original bytes exactly. -/
theorem spec_c7 (mem : List Nat) (v : Strview) (n : Int)
    (hwf : strviewWF mem v = true) :
    (0 ≤ n → viewBytes mem (strview_split_index v n).1
        ++ viewBytes mem (strview_split_index v n).2 = viewBytes mem v)
    ∧ (n < 0 → viewBytes mem (strview_split_index v n).2
        ++ viewBytes mem (strview_split_index v n).1 = viewBytes mem v) := by
  rcases v with ⟨dv, sz⟩
  cases dv with
  | none =>
    constructor
    · intro hn
      have hn' : ¬ n < 0 := by omega
      simp [strview_split_index, split_index, viewBytes, hn']
    · intro hn
      simp [strview_split_index, split_index, viewBytes, hn]
  | some o =>
    obtain ⟨h0, hb⟩ := (wf_some_iff mem o sz).mp hwf
    set i1 : Int := if n < 0 then sz + n else n with hi1
    set i2 : Int := if i1 < 0 then 0 else i1 with hi2
    set idx : Int := if i2 > sz then sz else i2 with hidx
    have hidx0 : 0 ≤ idx := by
      rw [hidx, hi2]
      split_ifs <;> omega
    have hidxs : idx ≤ sz := by
      rw [hidx, hi2]
      split_ifs <;> omega
    have key : viewBytes mem (⟨some o, idx⟩ : Strview)
        ++ viewBytes mem (⟨some (o + idx.toNat), sz - idx⟩ : Strview)
        = viewBytes mem ⟨some o, sz⟩ := by
      simp only [viewBytes]
      have h2 : (sz - idx).toNat = sz.toNat - idx.toNat := by omega
      rw [h2]
      exact take_drop_concat mem o sz.toNat idx.toNat (by omega)
    have hsplit : split_index ⟨some o, sz⟩ n
        = if n < 0 then
            ((⟨some (o + idx.toNat), sz - idx⟩ : Strview), (⟨some o, idx⟩ : Strview))
          else (⟨some o, idx⟩, ⟨some (o + idx.toNat), sz - idx⟩) := by
      simp only [split_index]
      rw [← hi1, ← hi2, ← hidx]
      simp
    constructor
    · intro hn
      have hn' : ¬ n < 0 := by omega
      simp only [strview_split_index]
      rw [hsplit, if_neg hn']
      exact key
    · intro hn
      simp only [strview_split_index]
      rw [hsplit, if_pos hn]
      exact key

/-- Witness for spec_c7: splitting "ABCDE" at index -2 and
re-concatenating head before tail reconstructs "ABCDE". -/
theorem spec_c7_witness :
    viewBytes [65, 66, 67, 68, 69] (strview_split_index ⟨some 0, 5⟩ (-2)).2
      ++ viewBytes [65, 66, 67, 68, 69] (strview_split_index ⟨some 0, 5⟩ (-2)).1
      = viewBytes [65, 66, 67, 68, 69] ⟨some 0, 5⟩ :=
  (spec_c7 [65, 66, 67, 68, 69] ⟨some 0, 5⟩ (-2) (by decide)).2 (by decide)

lemma split_first_snd_invalid (mem : List Nat) (s : Strview) (d : Option (List Nat))
    (cs : Bool) (h : (split_first_delimeter mem s d cs).2.data = none) :
    (split_first_delimeter mem s d cs).2 = STRVIEW_INVALID := by
  rcases h1 : s.data with _ | o <;> rcases h2 : findFirstDelimIdx mem s d cs with _ | i <;>
    simp only [split_first_delimeter, h1, h2] at h ⊢
  exfalso
  by_cases hz : s.size - (i : Int) - 1 ≠ 0 <;> simp [hz] at h

lemma split_last_snd_invalid (mem : List Nat) (s : Strview) (d : Option (List Nat))
    (cs : Bool) (h : (split_last_delimeter mem s d cs).2.data = none) :
    (split_last_delimeter mem s d cs).2 = STRVIEW_INVALID := by
  rcases h1 : s.data with _ | o <;> rcases h2 : findLastDelimIdx mem s d cs with _ | j <;>
    simp only [split_last_delimeter, h1, h2] at h ⊢
  simp at h

lemma split_first_at_invalid (mem : List Nat) (d : Option (List Nat)) (cs : Bool) :
    split_first_delimeter mem STRVIEW_INVALID d cs = (STRVIEW_INVALID, STRVIEW_INVALID) := by
  cases d <;> rfl

lemma split_last_at_invalid (mem : List Nat) (d : Option (List Nat)) (cs : Bool) :
    split_last_delimeter mem STRVIEW_INVALID d cs = (STRVIEW_INVALID, STRVIEW_INVALID) := by
  cases d <;> rfl

/-- C8: once a delimiter splitter reports not-found and sets the source
Invalid, that state is absorbing: any later `strview_split_first_delimeter`
or `strview_split_last_delimeter` call on the same source (any delimiter
set) returns an Invalid view and leaves the source Invalid. -/
theorem spec_c8 (mem mem' : List Nat) (d d' : Option (List Nat)) (s : Strview) :
    ((strview_split_first_delimeter mem s d).2.data = none →
        strview_split_first_delimeter mem' (strview_split_first_delimeter mem s d).2 d'
            = (STRVIEW_INVALID, STRVIEW_INVALID)
      ∧ strview_split_last_delimeter mem' (strview_split_first_delimeter mem s d).2 d'
            = (STRVIEW_INVALID, STRVIEW_INVALID))
    ∧ ((strview_split_last_delimeter mem s d).2.data = none →
        strview_split_first_delimeter mem' (strview_split_last_delimeter mem s d).2 d'
            = (STRVIEW_INVALID, STRVIEW_INVALID)
      ∧ strview_split_last_delimeter mem' (strview_split_last_delimeter mem s d).2 d'
            = (STRVIEW_INVALID, STRVIEW_INVALID)) := by
  constructor
  · intro h
    have h2 := split_first_snd_invalid mem s d true h
    simp only [strview_split_first_delimeter, strview_split_last_delimeter] at h2 ⊢
    rw [h2]
    exact ⟨split_first_at_invalid mem' d' true, split_last_at_invalid mem' d' true⟩
  · intro h
    have h2 := split_last_snd_invalid mem s d true h
    simp only [strview_split_first_delimeter, strview_split_last_delimeter] at h2 ⊢
    rw [h2]
    exact ⟨split_first_at_invalid mem' d' true, split_last_at_invalid mem' d' true⟩

/-- Witness for spec_c8: after a not-found split of "a" (no delimiters
match), further splits of the invalidated source stay Invalid. -/
theorem spec_c8_witness :
    strview_split_first_delimeter []
        (strview_split_first_delimeter [97] ⟨some 0, 1⟩ (some [47])).2 (some [47])
        = (STRVIEW_INVALID, STRVIEW_INVALID)
    ∧ strview_split_last_delimeter []
        (strview_split_first_delimeter [97] ⟨some 0, 1⟩ (some [47])).2 (some [47])
        = (STRVIEW_INVALID, STRVIEW_INVALID) :=
  (spec_c8 [97] [] (some [47]) (some [47]) ⟨some 0, 1⟩).1 (by decide)

/-- C5: split by first delimiter.  If the first byte of the source
belonging to the delimiter set occurs at offset i, the call returns
src[0:i] anchored at the source's data pointer, and the source becomes
the bytes strictly after the delimiter - except that when the delimiter
is the last byte the source becomes a Valid-empty view (data present,
size 0), not Invalid.  If no byte of the source belongs to the delimiter
set, the whole source is returned and the source is set Invalid. -/
theorem spec_c5 (mem : List Nat) (src : Strview) (dl : List Nat) (o : Nat)
    (hdata : src.data = some o) (hwf : strviewWF mem src = true) :
    (∀ i : Nat, findFirstDelimIdx mem src (some dl) true = some i →
      contains_char (some dl) ((viewBytes mem src).getD i 0) true = true
      ∧ (∀ j, j < i → contains_char (some dl) ((viewBytes mem src).getD j 0) true = false)
      ∧ (strview_split_first_delimeter mem src (some dl)).1 = ⟨some o, (i : Int)⟩
      ∧ viewBytes mem (strview_split_first_delimeter mem src (some dl)).1
          = (viewBytes mem src).take i
      ∧ ((i : Int) + 1 = src.size →
          (strview_split_first_delimeter mem src (some dl)).2 = ⟨some (o + i), 0⟩)
      ∧ ((i : Int) + 1 < src.size →
          (strview_split_first_delimeter mem src (some dl)).2
            = ⟨some (o + i + 1), src.size - i - 1⟩
          ∧ viewBytes mem (strview_split_first_delimeter mem src (some dl)).2
              = (viewBytes mem src).drop (i + 1)))
    ∧ ((∀ c ∈ viewBytes mem src, contains_char (some dl) c true = false) →
        strview_split_first_delimeter mem src (some dl) = (src, STRVIEW_INVALID)) := by
  rcases src with ⟨sd, sz⟩
  obtain rfl : sd = some o := hdata
  constructor
  · intro i hfind
    have hfind' : scanDelim (some dl) true (viewBytes mem ⟨some o, sz⟩) = some i := by
      simpa [findFirstDelimIdx] using hfind
    obtain ⟨hc1, hc2⟩ := scanDelim_spec hfind'
    obtain ⟨hile, heq, htake, hdrop, hwf2⟩ := split_first_found mem o sz dl true i hwf hfind'
    refine ⟨hc1, hc2, ?_, ?_, ?_, ?_⟩
    · simp only [strview_split_first_delimeter]
      rw [heq]
    · simp only [strview_split_first_delimeter]
      rw [heq]
      exact htake
    · intro hlast
      have hlast' : (i : Int) + 1 = sz := hlast
      simp only [strview_split_first_delimeter]
      rw [heq]
      have hz : sz - (i : Int) - 1 = 0 := by omega
      show (⟨if sz - (i : Int) - 1 ≠ 0 then some (o + i + 1) else some (o + i),
          sz - (i : Int) - 1⟩ : Strview) = ⟨some (o + i), 0⟩
      rw [if_neg (not_not_intro hz), hz]
    · intro hlt
      have hlt' : (i : Int) + 1 < sz := hlt
      simp only [strview_split_first_delimeter]
      rw [heq]
      have hz : sz - (i : Int) - 1 ≠ 0 := by omega
      constructor
      · show (⟨if sz - (i : Int) - 1 ≠ 0 then some (o + i + 1) else some (o + i),
            sz - (i : Int) - 1⟩ : Strview) = ⟨some (o + i + 1), sz - (i : Int) - 1⟩
        rw [if_pos hz]
      · exact hdrop
  · intro hnone
    have hscan := scanDelim_eq_none hnone
    simp only [strview_split_first_delimeter, split_first_delimeter, findFirstDelimIdx, hscan]

/-- Witness for spec_c5: "2023/07/03" split at the first slash returns
"2023" and leaves "07/03". -/
theorem spec_c5_witness :
    (strview_split_first_delimeter [50, 48, 50, 51, 47, 48, 55, 47, 48, 51]
        ⟨some 0, 10⟩ (some [47])).1 = ⟨some 0, 4⟩
    ∧ (strview_split_first_delimeter [50, 48, 50, 51, 47, 48, 55, 47, 48, 51]
        ⟨some 0, 10⟩ (some [47])).2 = ⟨some 5, 5⟩ := by
  have h := (spec_c5 [50, 48, 50, 51, 47, 48, 55, 47, 48, 51] ⟨some 0, 10⟩ [47] 0 rfl
      (by decide)).1 4 (by decide)
  exact ⟨h.2.2.1, (h.2.2.2.2.2 (by decide)).1⟩

lemma splitRun_join (mem : List Nat) (dl : List Nat) :
    ∀ (fuel : Nat) (src : Strview), strviewWF mem src = true →
      joinSeps (splitRun mem (some dl) fuel src).1 (splitRun mem (some dl) fuel src).2.1
        = viewBytes mem src := by
  intro fuel
  induction fuel with
  | zero => intro src _; simp [splitRun, joinSeps]
  | succ n ih =>
    intro src hwf
    rcases src with ⟨sd, sz⟩
    cases sd with
    | none => simp [splitRun, findFirstDelimIdx, joinSeps]
    | some o =>
      rcases h2 : findFirstDelimIdx mem ⟨some o, sz⟩ (some dl) true with _ | i
      · simp [splitRun, h2, joinSeps]
      · have hfind' : scanDelim (some dl) true (viewBytes mem ⟨some o, sz⟩) = some i := by
          simpa [findFirstDelimIdx] using h2
        obtain ⟨h0, hb⟩ := (wf_some_iff mem o sz).mp hwf
        obtain ⟨hile, heq, htake, hdrop, hwf2⟩ := split_first_found mem o sz dl true i hwf hfind'
        have hlen := viewBytes_length_of_wf mem o sz hwf
        simp only [splitRun, h2, strview_split_first_delimeter]
        rw [heq]
        simp only [joinSeps]
        rw [htake, ih _ hwf2, hdrop]
        exact take_getD_drop (viewBytes mem ⟨some o, sz⟩) i (by omega)

lemma splitRun_final (mem : List Nat) (dl : List Nat) :
    ∀ (fuel : Nat) (src : Strview), strviewWF mem src = true → src.size.toNat < fuel →
      ((splitRun mem (some dl) fuel src).2.2).data = none := by
  intro fuel
  induction fuel with
  | zero => intro src _ h; exact absurd h (by omega)
  | succ n ih =>
    intro src hwf hlt
    rcases src with ⟨sd, sz⟩
    cases sd with
    | none => simp [splitRun, findFirstDelimIdx, STRVIEW_INVALID]
    | some o =>
      rcases h2 : findFirstDelimIdx mem ⟨some o, sz⟩ (some dl) true with _ | i
      · simp [splitRun, h2, STRVIEW_INVALID]
      · have hfind' : scanDelim (some dl) true (viewBytes mem ⟨some o, sz⟩) = some i := by
          simpa [findFirstDelimIdx] using h2
        obtain ⟨h0, hb⟩ := (wf_some_iff mem o sz).mp hwf
        obtain ⟨hile, heq, htake, hdrop, hwf2⟩ := split_first_found mem o sz dl true i hwf hfind'
        simp only [splitRun, h2, strview_split_first_delimeter]
        rw [heq]
        apply ih _ hwf2
        show (sz - (i : Int) - 1).toNat < n
        have hlt' : sz.toNat < n + 1 := hlt
        omega

/-- C6: repeatedly splitting a well-formed view by a non-empty delimiter
set until the source becomes Invalid, then concatenating the returned
pieces with the consumed delimiter byte between consecutive pieces,
reconstructs the original content exactly; the run does reach the
Invalid source state within size + 1 calls. -/
theorem spec_c6 (mem : List Nat) (v : Strview) (dl : List Nat) (_hne : dl ≠ [])
    (hwf : strviewWF mem v = true) :
    joinSeps (splitRun mem (some dl) (v.size.toNat + 1) v).1
        (splitRun mem (some dl) (v.size.toNat + 1) v).2.1 = viewBytes mem v
    ∧ ((splitRun mem (some dl) (v.size.toNat + 1) v).2.2).data = none :=
  ⟨splitRun_join mem dl (v.size.toNat + 1) v hwf,
   splitRun_final mem dl (v.size.toNat + 1) v hwf (by omega)⟩

/-- Witness for spec_c6: the full delimiter run over "2023/07/03" with
delimiter set "/" reconstructs the original bytes and ends Invalid. -/
theorem spec_c6_witness :
    joinSeps (splitRun [50, 48, 50, 51, 47, 48, 55, 47, 48, 51] (some [47]) 11 ⟨some 0, 10⟩).1
        (splitRun [50, 48, 50, 51, 47, 48, 55, 47, 48, 51] (some [47]) 11 ⟨some 0, 10⟩).2.1
      = viewBytes [50, 48, 50, 51, 47, 48, 55, 47, 48, 51] ⟨some 0, 10⟩
    ∧ ((splitRun [50, 48, 50, 51, 47, 48, 55, 47, 48, 51] (some [47]) 11 ⟨some 0, 10⟩).2.2).data
        = none :=
  spec_c6 [50, 48, 50, 51, 47, 48, 55, 47, 48, 51] ⟨some 0, 10⟩ [47] (by decide) (by decide)

/-- C3: evaluation at the failing input.  The source views "\x0aabc"
(bytes 10, 97, 98, 99 at offset 0, size 4) and the eol state carries a
pending CR (13); the leading LF completes the pending pair and is
consumed, no further CR/LF terminator exists, and the call returns an
Invalid view - but the source is replaced by the 3-byte view at offset 1
("abc") instead of keeping its original (data, length) pair, which
contradicts the claim and the header's documented contract. -/
theorem spec_c3_eval :
    strview_split_line [10, 97, 98, 99] ⟨some 0, 4⟩ (some 13)
        = (STRVIEW_INVALID, ⟨some 1, 3⟩, some 13)
    ∧ ((⟨some 1, 3⟩ : Strview) ≠ (⟨some 0, 4⟩ : Strview)) :=
  ⟨by decide, by decide⟩
